import Mathlib

/-!
Verification development for the Turkish idioms/proverbs lexicon engine.

Shallow embedding of `src/data/normalize_tr.py` and `src/lexicon/matcher.py`.
Python strings are modelled as lists of Unicode code points (`List Nat`),
which matches Python's string semantics (indexing and spans are in code
points).  The external Zeyrek morphological analyzer is modelled as an
oracle `PyStr → ZeyrekOutcome`; the module-level statistics counters and
the lemma cache are threaded explicitly as a state record.
-/

/-- A Python string: the list of its Unicode code points. -/
abbrev PyStr := List Nat

/-- Build a `PyStr` from a Lean string literal (code points of its characters). -/
def pys (s : String) : PyStr := s.toList.map Char.toNat

/-- Python `\s` for the characters relevant here (space, tab, LF, VT, FF, CR). -/
def isWs (c : Nat) : Bool :=
  c == 32 || c == 9 || c == 10 || c == 11 || c == 12 || c == 13

/-- Python `\w` restricted to the alphabet this repository works with:
ASCII alphanumerics, underscore, and the Turkish letters
ç/Ç ğ/Ğ ı/İ ö/Ö ş/Ş ü/Ü plus â î û.  (Python's `\w` covers all Unicode
word characters; only these occur in the data and the claims.) -/
def isWordChar (c : Nat) : Bool :=
  (48 ≤ c && c ≤ 57) || (65 ≤ c && c ≤ 90) || (97 ≤ c && c ≤ 122) || c == 95 ||
  c == 231 || c == 199 || c == 287 || c == 286 || c == 305 || c == 304 ||
  c == 246 || c == 214 || c == 351 || c == 350 || c == 252 || c == 220 ||
  c == 226 || c == 238 || c == 251

/-- One character of Python's generic `str.lower()`, restricted to the
alphabet in play.  ASCII `A`–`Z` (65–90) maps to `a`–`z` (+32); the Turkish
uppercase letters map to their lowercase pairs.  `İ` (304) lowercases, as in
Python, to the two code points `i` + combining dot above (105, 775). -/
def lowerChar (c : Nat) : List Nat :=
  if 65 ≤ c ∧ c ≤ 90 then [c + 32]
  else if c = 199 then [231]        -- Ç → ç
  else if c = 214 then [246]        -- Ö → ö
  else if c = 220 then [252]        -- Ü → ü
  else if c = 286 then [287]        -- Ğ → ğ
  else if c = 304 then [105, 775]   -- İ → i + U+0307 (Python semantics)
  else if c = 350 then [351]        -- Ş → ş
  else [c]

/-- Python `str.lower()` on a whole string. -/
def pyLower (s : PyStr) : PyStr := s.flatMap lowerChar

/-- Python `str.replace(old, new)` for single-character `old`/`new`,
as a per-character map. -/
def rchar (old new c : Nat) : Nat := if c = old then new else c

/-- `turkish_lowercase` (normalize_tr.py): first `replace('I', 'ı')` (73 → 305)
and `replace('İ', 'i')` (304 → 105), then generic `str.lower()`. -/
def turkish_lowercase (text : PyStr) : PyStr :=
  pyLower ((text.map (rchar 73 305)).map (rchar 304 105))

/-- The per-character composite that `turkish_lowercase` applies. -/
def tlc (c : Nat) : List Nat := lowerChar (rchar 304 105 (rchar 73 305 c))

/-- `re.sub(r'\s+', ' ', text)`: each maximal whitespace run becomes one
space.  The flag records whether the previous character was whitespace. -/
def collapseWsAux (prevWs : Bool) : PyStr → PyStr
  | [] => []
  | c :: cs =>
    if isWs c then
      if prevWs then collapseWsAux true cs else 32 :: collapseWsAux true cs
    else c :: collapseWsAux false cs

/-- Remove trailing whitespace (the trailing part of Python `str.strip()`). -/
def dropTrailWs : PyStr → PyStr
  | [] => []
  | c :: cs =>
    if (dropTrailWs cs).isEmpty && isWs c then [] else c :: dropTrailWs cs

/-- Python `str.strip()`: drop leading and trailing whitespace. -/
def pyStrip (s : PyStr) : PyStr := dropTrailWs (s.dropWhile isWs)

/-- `normalize_whitespace` (normalize_tr.py): collapse whitespace runs to a
single space, then strip. -/
def normalize_whitespace (text : PyStr) : PyStr :=
  pyStrip (collapseWsAux false text)

/-- `normalize_punctuation` (normalize_tr.py):
`re.sub(r'[^\w\s.,!?;:()\-\'"]', '', text)` — keep word characters,
whitespace and the listed punctuation, drop everything else. -/
def normalize_punctuation (text : PyStr) : PyStr :=
  text.filter fun c =>
    isWordChar c || isWs c ||
    c == 46 || c == 44 || c == 33 || c == 63 || c == 59 || c == 58 ||
    c == 40 || c == 41 || c == 45 || c == 39 || c == 34

/-- `normalize_turkish_text` (normalize_tr.py).  Empty input short-circuits
to `""`; then the three steps run in source order under their flags. -/
def normalize_turkish_text (text : PyStr)
    (lowercase : Bool := true) (normalize_ws : Bool := true)
    (normalize_punct : Bool := false) : PyStr :=
  if text.isEmpty then []
  else
    let t1 := if lowercase then turkish_lowercase text else text
    let t2 := if normalize_ws then normalize_whitespace t1 else t1
    let t3 := if normalize_punct then normalize_punctuation t2 else t2
    t3

/-- Maximal word-character runs (the `re.findall(r'\b\w+\b', ·)` token
contents); `cur` accumulates the current run, reversed. -/
def wordRunsAux (cur : PyStr) : PyStr → List PyStr
  | [] => if cur.isEmpty then [] else [cur.reverse]
  | c :: cs =>
    if isWordChar c then wordRunsAux (c :: cur) cs
    else if cur.isEmpty then wordRunsAux [] cs
    else cur.reverse :: wordRunsAux [] cs

/-- `tokenize_simple` (normalize_tr.py): word tokens of the normalized text. -/
def tokenize_simple (text : PyStr) : List PyStr :=
  wordRunsAux [] (normalize_turkish_text text)

/-- Character index spans of the maximal word-character runs of a string
(the spans of `re.finditer(r'\b\w+\b', text)`); `i` is the current index and
`start` the start of the run in progress, if any. -/
def wordSpansAux (i : Nat) (start : Option Nat) : PyStr → List (Nat × Nat)
  | [] => match start with
    | some st => [(st, i)]
    | none => []
  | c :: cs =>
    if isWordChar c then
      match start with
      | some st => wordSpansAux (i + 1) (some st) cs
      | none => wordSpansAux (i + 1) (some i) cs
    else
      match start with
      | some st => (st, i) :: wordSpansAux (i + 1) none cs
      | none => wordSpansAux (i + 1) none cs

/-- The word-token spans of a string, in character coordinates. -/
def word_spans (text : PyStr) : List (Nat × Nat) := wordSpansAux 0 none text

/-- Every whitespace character of the string is a plain space (the shape of
whitespace-collapsed text). -/
def AllWsSp (s : PyStr) : Prop := ∀ c ∈ s, isWs c = true → c = 32

/-- No two adjacent whitespace characters (the shape of
whitespace-collapsed text). -/
def NoTwoWs (s : PyStr) : Prop :=
  List.Chain' (fun a b => ¬(isWs a = true ∧ isWs b = true)) s

/-- The first character, if any, is not whitespace (the shape of
left-stripped text). -/
def HeadNotWs (s : PyStr) : Prop := ∀ c, s.head? = some c → isWs c = false

/-- The last character, if any, is not whitespace (the shape of
right-stripped text). -/
def LastNotWs (s : PyStr) : Prop := ∀ c, s.getLast? = some c → isWs c = false

/-- Model of a Python set built by repeated `add`: keep first insertion
order, ignore re-insertions.  (CPython set iteration order is unspecified;
the claims only rely on membership, never on the order of stems.) -/
def insertUniq (l : List PyStr) (x : PyStr) : List PyStr :=
  if l.contains x then l else l ++ [x]

/-- The `noun_suffixes` table of `_simple_noun_stem`, in source order. -/
def noun_suffixes : List PyStr :=
  [pys "larından", pys "lerinden", pys "larında", pys "lerinde",
   pys "larına", pys "lerine", pys "larını", pys "lerini",
   pys "lardan", pys "lerden", pys "larda", pys "lerde",
   pys "lara", pys "lere", pys "ları", pys "leri",
   pys "ından", pys "inden", pys "undan", pys "ünden",
   pys "ımdan", pys "imden", pys "umdan", pys "ümden",
   pys "ında", pys "inde", pys "unda", pys "ünde",
   pys "ımda", pys "imde", pys "umda", pys "ümde",
   pys "ına", pys "ine", pys "una", pys "üne",
   pys "ıma", pys "ime", pys "uma", pys "üme",
   pys "ını", pys "ini", pys "unu", pys "ünü",
   pys "ımı", pys "imi", pys "umu", pys "ümü",
   pys "dan", pys "den", pys "tan", pys "ten",
   pys "ndan", pys "nden",
   pys "da", pys "de", pys "ta", pys "te",
   pys "nda", pys "nde",
   pys "na", pys "ne",
   pys "ya", pys "ye",
   pys "a", pys "e",
   pys "lar", pys "ler",
   pys "ım", pys "im", pys "um", pys "üm",
   pys "ın", pys "in", pys "un", pys "ün",
   pys "ımız", pys "imiz", pys "umuz", pys "ümüz",
   pys "ınız", pys "iniz", pys "unuz", pys "ünüz",
   pys "nı", pys "ni", pys "nu", pys "nü",
   pys "yı", pys "yi", pys "yu", pys "yü",
   pys "sı", pys "si", pys "su", pys "sü",
   pys "ı", pys "i", pys "u", pys "ü"]

/-- `_simple_noun_stem` (normalize_tr.py): strip noun suffixes; a stem is
kept when the suffix matches, `len(word) > len(suffix) + 1` and the stem
has at least 2 characters; if no suffix applied, return the word itself. -/
def _simple_noun_stem (word : PyStr) : List PyStr :=
  if word.length < 3 then [word]
  else
    let stems := noun_suffixes.foldl (fun stems suffix =>
      if suffix.isSuffixOf word && decide (suffix.length + 1 < word.length) then
        let stem := word.take (word.length - suffix.length)
        if 2 ≤ stem.length then insertUniq stems stem else stems
      else stems) []
    if stems.isEmpty then [word] else stems

/-- The `verb_suffixes` table of `_simple_verb_stem`, in source order. -/
def verb_suffixes : List PyStr :=
  [pys "ıyordum", pys "iyordum", pys "uyordum", pys "üyordum",
   pys "ıyorsun", pys "iyorsun", pys "uyorsun", pys "üyorsun",
   pys "ıyoruz", pys "iyoruz", pys "uyoruz", pys "üyoruz",
   pys "ıyorlar", pys "iyorlar", pys "uyorlar", pys "üyorlar",
   pys "ıyorum", pys "iyorum", pys "uyorum", pys "üyorum",
   pys "ıyor", pys "iyor", pys "uyor", pys "üyor",
   pys "dılar", pys "diler", pys "dular", pys "düler",
   pys "tılar", pys "tiler", pys "tular", pys "tüler",
   pys "dık", pys "dik", pys "duk", pys "dük",
   pys "tık", pys "tik", pys "tuk", pys "tük",
   pys "dım", pys "dim", pys "dum", pys "düm",
   pys "tım", pys "tim", pys "tum", pys "tüm",
   pys "dın", pys "din", pys "dun", pys "dün",
   pys "tın", pys "tin", pys "tun", pys "tün",
   pys "dı", pys "di", pys "du", pys "dü",
   pys "tı", pys "ti", pys "tu", pys "tü",
   pys "acağım", pys "eceğim", pys "acaksın", pys "eceksin",
   pys "acağız", pys "eceğiz", pys "acaklar", pys "ecekler",
   pys "acak", pys "ecek",
   pys "mışlar", pys "mişler", pys "muşlar", pys "müşler",
   pys "mışım", pys "mişim", pys "muşum", pys "müşüm",
   pys "mışsın", pys "mişsin", pys "muşsun", pys "müşsün",
   pys "mış", pys "miş", pys "muş", pys "müş",
   pys "ırlar", pys "irler", pys "urlar", pys "ürler",
   pys "arlar", pys "erler",
   pys "ırım", pys "irim", pys "urum", pys "ürüm",
   pys "arım", pys "erim",
   pys "ırsın", pys "irsin", pys "ursun", pys "ürsün",
   pys "arsın", pys "ersin",
   pys "ır", pys "ir", pys "ur", pys "ür",
   pys "ar", pys "er",
   pys "ayım", pys "eyim", pys "alım", pys "elim",
   pys "asın", pys "esin", pys "alar", pys "eler",
   pys "sın", pys "sin", pys "sun", pys "sün",
   pys "ınız", pys "iniz", pys "unuz", pys "ünüz",
   pys "sınlar", pys "sinler", pys "sunlar", pys "sünler",
   pys "mak", pys "mek",
   pys "ma", pys "me",
   pys "ış", pys "iş", pys "uş", pys "üş"]

/-- `_simple_verb_stem` (normalize_tr.py): strip verb suffixes; each kept
stem is added both with an infinitive suffix (`mak` after a back vowel
`a/ı/o/u`, else `mek`) and bare. -/
def _simple_verb_stem (word : PyStr) : List PyStr :=
  if word.length < 4 then [word]
  else
    let stems := verb_suffixes.foldl (fun stems suffix =>
      if suffix.isSuffixOf word && decide (suffix.length + 2 < word.length) then
        let stem := word.take (word.length - suffix.length)
        if 2 ≤ stem.length then
          let infinitive :=
            if [97, 305, 111, 117].contains (stem.getLast?.getD 0)
            then stem ++ pys "mak" else stem ++ pys "mek"
          insertUniq (insertUniq stems infinitive) stem
        else stems
      else stems) []
    if stems.isEmpty then [word] else stems

/-- `_simple_stem` (normalize_tr.py): union of noun stems, verb stems and
the original word (modelled in insertion order, see `insertUniq`). -/
def _simple_stem (word : PyStr) : List PyStr :=
  if word.length < 3 then [word]
  else (_simple_noun_stem word ++ _simple_verb_stem word ++ [word]).foldl insertUniq []

/-- Outcome of one bounded call to the external Zeyrek analyzer (as observed
by `_zeyrek_lemmatize_with_timeout`): the thread timed out, raised, or
completed with a (possibly empty) lemma list.  `ok []` also covers the
analyzer being unavailable or returning no analyses. -/
inductive ZeyrekOutcome
  | timeout
  | err
  | ok (lemmas : List PyStr)

/-- The module-level mutable state of normalize_tr.py: the `_zeyrek_stats`
counters and the `_lemma_cache` (an insertion-ordered dict). -/
structure LemmaState where
  calls : Nat
  successes : Nat
  timeouts : Nat
  errors : Nat
  fallbacks : Nat
  cache : List (PyStr × List PyStr)
deriving DecidableEq

/-- The value `_zeyrek_lemmatize_with_timeout` hands back (no statistics):
`None` on timeout, error, or empty analyses; otherwise the first analysis'
lemmas, lowercased. -/
def zeyrekResult (analyzer : PyStr → ZeyrekOutcome) (word : PyStr) :
    Option (List PyStr) :=
  match analyzer word with
  | .timeout => none
  | .err => none
  | .ok ls => if ls.isEmpty then none else some (ls.map pyLower)

/-- `_zeyrek_lemmatize_with_timeout` (normalize_tr.py): bump `calls`, then
record exactly one of `timeouts` / `errors` / `successes` according to the
outcome, returning the lemma list on success only. -/
def _zeyrek_lemmatize_with_timeout (analyzer : PyStr → ZeyrekOutcome)
    (st : LemmaState) (word : PyStr) : Option (List PyStr) × LemmaState :=
  let st := { st with calls := st.calls + 1 }
  match analyzer word with
  | .timeout => (none, { st with timeouts := st.timeouts + 1 })
  | .err => (none, { st with errors := st.errors + 1 })
  | .ok ls =>
    if ls.isEmpty then (none, st)
    else (some (ls.map pyLower), { st with successes := st.successes + 1 })

/-- Lookup in the lemma cache (`word_lower in _lemma_cache`). -/
def cacheLookup (cache : List (PyStr × List PyStr)) (k : PyStr) :
    Option (List PyStr) :=
  (cache.find? fun p => p.1 == k).map Prod.snd

/-- Order-preserving deduplication (the `seen`-set loop of `get_all_lemmas`). -/
def dedupKeepOrder (l : List PyStr) : List PyStr :=
  l.foldl (fun acc x => if acc.contains x then acc else acc ++ [x]) []

/-- The cache-miss path of `get_all_lemmas` (`word_lower` is already
lowercased): one bounded analyzer call; the rule-based stemmer is appended
iff the analyzer produced nothing or only the bare lowercased word,
recording a fallback; dedup preserving order; degenerate to `[word_lower]`
when empty; record the result in the cache. -/
def get_all_lemmas_core (analyzer : PyStr → ZeyrekOutcome) (st : LemmaState)
    (word_lower : PyStr) : List PyStr × LemmaState :=
  let zres := _zeyrek_lemmatize_with_timeout analyzer st word_lower
  let lemmas := zres.1.getD []
  let fb :=
    if lemmas.isEmpty || lemmas == [word_lower] then
      (lemmas ++ _simple_stem word_lower,
       { zres.2 with fallbacks := zres.2.fallbacks + 1 })
    else (lemmas, zres.2)
  let unique_lemmas := dedupKeepOrder fb.1
  let result := if unique_lemmas.isEmpty then [word_lower] else unique_lemmas
  (result, { fb.2 with cache := fb.2.cache ++ [(word_lower, result)] })

/-- `get_all_lemmas` (normalize_tr.py).  Words shorter than 2 characters
return `[word]` unchanged, before any cache lookup, analyzer call or
statistics update; then cache lookup (a hit returns the cached list
untouched); otherwise the miss path above. -/
def get_all_lemmas (analyzer : PyStr → ZeyrekOutcome) (st : LemmaState)
    (word : PyStr) : List PyStr × LemmaState :=
  if word.isEmpty || word.length < 2 then ([word], st)
  else
    let word_lower := pyLower word
    match cacheLookup st.cache word_lower with
    | some cached => (cached, st)
    | none => get_all_lemmas_core analyzer st word_lower

/-- The initial module state: zeroed counters, empty cache. -/
def initState : LemmaState := ⟨0, 0, 0, 0, 0, []⟩

/-- One lexicon entry of `LexiconMatcher`: a normalized-expression key with
its metadata (`original`, `definition`), already extracted as
`lexicon[expr].get('original', expr)` / `.get('definition', '')` do. -/
structure LexEntry where
  key : PyStr
  original : PyStr
  definition : PyStr
deriving DecidableEq

/-- A match dict produced by the matcher: `span` (character span, Python
ints), `expression`, `definition`, `normalized_expr`. -/
structure MatchD where
  span : Int × Int
  expression : PyStr
  definition : PyStr
  normalized_expr : PyStr
deriving DecidableEq

/-- The sort key of `_remove_overlaps`: ascending `span[0]`, and descending
`span[1]` as tie-break (Python key `(x['span'][0], -x['span'][1])`). -/
def overlapKeyLE (a b : MatchD) : Bool :=
  decide (a.span.1 < b.span.1) ||
    (decide (a.span.1 = b.span.1) && decide (b.span.2 ≤ a.span.2))

/-- Stable insertion into a sorted list: `x` goes before the first element
`y` with `le x y` (so before later-inserted equals — Python's sort order). -/
def insertLe {α : Type} (le : α → α → Bool) (x : α) : List α → List α
  | [] => [x]
  | y :: ys => if le x y then x :: y :: ys else y :: insertLe le x ys

/-- Stable sort by `le`, modelling Python's `sorted` (Timsort is stable; a
stable sort for a total preorder is unique, so insertion sort computes the
same list). -/
def sortLe {α : Type} (le : α → α → Bool) : List α → List α
  | [] => []
  | x :: xs => insertLe le x (sortLe le xs)

/-- One step of the greedy sweep in `_remove_overlaps`, acting on the kept
list in reverse order (`filtered[-1]` is the head): a candidate that starts
at or after the last kept end is appended; one that overlaps replaces the
last kept candidate iff its character span is strictly longer. -/
def _remove_overlaps_step (filtered : List MatchD) (m : MatchD) : List MatchD :=
  match filtered with
  | [] => [m]
  | last :: rest =>
    if last.span.2 ≤ m.span.1 then m :: last :: rest
    else if last.span.2 - last.span.1 < m.span.2 - m.span.1 then m :: rest
    else last :: rest

/-- `_remove_overlaps` (matcher.py): sort candidates by
`(start, -end)`, then sweep greedily. -/
def _remove_overlaps (cands : List MatchD) : List MatchD :=
  ((sortLe overlapKeyLE cands).foldl _remove_overlaps_step []).reverse

/-- Single-character case folding used to model `re.IGNORECASE` for the
literal (escaped) patterns of `exact_match`: ASCII and one-to-one Turkish
lowercasing. -/
def foldCaseChar (c : Nat) : Nat :=
  if 65 ≤ c ∧ c ≤ 90 then c + 32
  else if c = 199 then 231
  else if c = 214 then 246
  else if c = 220 then 252
  else if c = 286 then 287
  else if c = 304 then 105
  else if c = 350 then 351
  else c

/-- Case folding of a whole string (coordinate-preserving, one cell per
character, as `re.IGNORECASE` comparison is). -/
def foldCase (s : PyStr) : PyStr := s.map foldCaseChar

/-- `re.finditer` for a literal pattern: scan every position left to right,
emit a span where the pattern occurs, and skip the positions covered by an
emitted match (successive non-overlapping leftmost occurrences).  An empty
pattern matches at every position, advancing by one, as in Python.  The
fold state is (matches so far in reverse, first allowed next start). -/
def findIter (pat s : PyStr) : List (Nat × Nat) :=
  ((List.range (s.length + 1)).foldl
    (fun (acc : List (Nat × Nat) × Nat) i =>
      if i < acc.2 then acc
      else if pat.isPrefixOf (s.drop i) then
        ((i, i + pat.length) :: acc.1, i + max 1 pat.length)
      else acc)
    ([], 0)).1.reverse

/-- Build the match dict for a lexicon entry at a span. -/
def mkMatch (entry : LexEntry) (sp : Int × Int) : MatchD :=
  ⟨sp, entry.original, entry.definition, entry.key⟩

/-- `exact_match` (matcher.py): normalize the text once; for every lexicon
expression, collect all non-overlapping literal occurrences (case-folded,
modelling the `re.IGNORECASE`-compiled escaped pattern) with their spans in
the normalized text; then resolve overlaps. -/
def exact_match (lexicon : List LexEntry) (text : PyStr) : List MatchD :=
  let normalized_text := normalize_turkish_text text
  _remove_overlaps (lexicon.flatMap fun entry =>
    (findIter (foldCase entry.key) (foldCase normalized_text)).map fun sp =>
      mkMatch entry ((sp.1 : Int), (sp.2 : Int)))

/-- The lemma-aware comparison of one expression token against one window
token in `_tokens_match`: equal normalized surface forms, or a non-empty
intersection of the lemma sets of the normalized forms.  `lem` is the
(cached, hence functional) `get_all_lemmas`. -/
def tokenPairMatch (lem : PyStr → List PyStr) (e w : PyStr) : Bool :=
  let expr_norm := normalize_turkish_text e
  let window_norm := normalize_turkish_text w
  expr_norm == window_norm ||
    (lem expr_norm).any fun l => (lem window_norm).contains l

/-- The cursor walk of `_flexible_tokens_match`, returning the number of
matched token pairs: on a pair match advance both cursors; on a mismatch
first try skipping one expression token, then one window token (when the
next token's normalized form equals the other side's current normalized
form); otherwise advance both without counting.
The recursion is on an explicit fuel (each loop iteration advances at
least one cursor, so `expr.length + window.length` steps always suffice);
this keeps the definition structurally recursive and evaluable. -/
def _flexible_countAux (lem : PyStr → List PyStr) :
    Nat → List PyStr → List PyStr → Nat
  | _, [], _ => 0
  | _, _ :: _, [] => 0
  | 0, _ :: _, _ :: _ => 0
  | fuel + 1, e :: es, w :: ws =>
    let en := normalize_turkish_text e
    let wn := normalize_turkish_text w
    if en == wn || (lem en).any (fun l => (lem wn).contains l) then
      1 + _flexible_countAux lem fuel es ws
    else if (match es with
             | e2 :: _ => normalize_turkish_text e2 == wn
             | [] => false) then
      _flexible_countAux lem fuel es (w :: ws)
    else if (match ws with
             | w2 :: _ => en == normalize_turkish_text w2
             | [] => false) then
      _flexible_countAux lem fuel (e :: es) ws
    else
      _flexible_countAux lem fuel es ws

/-- The matched-pair count of a `_flexible_tokens_match` walk. -/
def _flexible_count (lem : PyStr → List PyStr)
    (expr_tokens window_tokens : List PyStr) : Nat :=
  _flexible_countAux lem (expr_tokens.length + window_tokens.length)
    expr_tokens window_tokens

/-- The acceptance threshold of `_flexible_tokens_match`:
`max(2, int(len(expr_tokens) * 0.7))`.  Python's `int()` truncates, and for
the token counts in play `int(n * 0.7)` equals `⌊7n/10⌋` (IEEE rounding of
`n * 0.7` never crosses an integer for these magnitudes). -/
def flexible_min_matches (n : Nat) : Nat := max 2 (n * 7 / 10)

/-- `_flexible_tokens_match` (matcher.py): accept iff the number of matched
pairs reaches the threshold. -/
def _flexible_tokens_match (lem : PyStr → List PyStr)
    (expr_tokens window_tokens : List PyStr) : Bool :=
  decide (flexible_min_matches expr_tokens.length ≤
    _flexible_count lem expr_tokens window_tokens)

/-- `_tokens_match` (matcher.py): length mismatch fails unless `allow_skip`,
in which case the flexible walk decides; equal lengths compare pairwise. -/
def _tokens_match (lem : PyStr → List PyStr)
    (expr_tokens window_tokens : List PyStr)
    (allow_skip : Bool := false) : Bool :=
  if expr_tokens.length != window_tokens.length && !allow_skip then false
  else if allow_skip && (expr_tokens.length != window_tokens.length) then
    _flexible_tokens_match lem expr_tokens window_tokens
  else
    (expr_tokens.zip window_tokens).all fun p => tokenPairMatch lem p.1 p.2

/-- `_find_token_span` (matcher.py): character span of a token index range,
from the word spans of the original text (its `\b\w+\b` matches), guarded by
the token count of the normalized text. -/
def _find_token_span (text : PyStr) (start_token_idx end_token_idx : Nat) :
    Option (Int × Int) :=
  let tokens := tokenize_simple text
  if tokens.length < end_token_idx then none
  else
    let ms := word_spans text
    if decide (ms.length ≤ start_token_idx) || decide (ms.length < end_token_idx)
    then none
    else
      match ms[start_token_idx]?, ms[end_token_idx - 1]? with
      | some a, some b => some ((a.1 : Int), (b.2 : Int))
      | _, _ => none

/-- The full-length window pass of `token_window_match`: try every window
of exactly `expr_len` tokens left to right; the first window whose tokens
match and whose character span resolves yields the (single) candidate. -/
def pass1_find (lem : PyStr → List PyStr) (text : PyStr)
    (expr_tokens tokens : List PyStr) : Option (Int × Int) :=
  let el := expr_tokens.length
  (List.range (tokens.length - el + 1)).findSome? fun i =>
    if _tokens_match lem expr_tokens ((tokens.drop i).take el) then
      _find_token_span text i (i + el)
    else none

/-- The `(match_start, match_end)` pairs tried by the partial pass of
`token_window_match`, in loop order: `match_start` over `range(expr_len-1)`
and `match_end` over `range(match_start + 2, expr_len + 1)`. -/
def partial_pairs (el : Nat) : List (Nat × Nat) :=
  (List.range (el - 1)).flatMap fun ms =>
    (List.range' (ms + 2) (el + 1 - (ms + 2))).map fun me => (ms, me)

/-- The partial (sub-window) pass of `token_window_match`, parameterized by
the acceptance predicate applied to `(match_len, expr_len)` (in the source
it is inlined: `matched_ratio >= 0.5 or match_len >= 2`).  For each tried
pair, scan all windows of `match_len` tokens; the first hit with a
resolvable span ends the whole pass with that candidate.  A sub-window
longer than the token list breaks out of both loops (the non-exhausted
inner `for` skips its `else: continue` and reaches the outer `break`),
aborting the entire pass. -/
def partial_go (accept : Nat → Nat → Bool) (lem : PyStr → List PyStr)
    (text : PyStr) (expr_tokens tokens : List PyStr) (el : Nat) :
    List (Nat × Nat) → Option (Int × Int)
  | [] => none
  | (ms, me) :: rest =>
    let ml := me - ms
    if tokens.length < ml then none
    else
      let expr_subset := (expr_tokens.drop ms).take ml
      match (List.range (tokens.length - ml + 1)).findSome? (fun i =>
        if _tokens_match lem expr_subset ((tokens.drop i).take ml) then
          if accept ml el then _find_token_span text i (i + ml) else none
        else none) with
      | some sp => some sp
      | none => partial_go accept lem text expr_tokens tokens el rest

/-- The acceptance test of the partial pass:
`matched_ratio >= 0.5 or match_len >= 2`, with the exact rational reading
of the float comparison (`ml / el ≥ 0.5  ↔  2·ml ≥ el`). -/
def accept_partial (match_len expr_len : Nat) : Bool :=
  decide (expr_len ≤ 2 * match_len) || decide (2 ≤ match_len)

/-- `token_window_match` (matcher.py), parameterized by the partial-pass
acceptance predicate.  Per expression (skipping single-token expressions):
at most one full-window candidate, then — independently — at most one
partial candidate for expressions of 3+ tokens; finally resolve overlaps.
`window_size` is accepted and, exactly as in the source body, never read. -/
def token_window_match_aux (accept : Nat → Nat → Bool)
    (lem : PyStr → List PyStr) (lexicon : List LexEntry) (text : PyStr)
    (window_size : Nat) : List MatchD :=
  let tokens := tokenize_simple text
  _remove_overlaps (lexicon.flatMap fun entry =>
    let expr_tokens := tokenize_simple entry.key
    let el := expr_tokens.length
    if el < 2 then []
    else
      (if el ≤ tokens.length then
        match pass1_find lem text expr_tokens tokens with
        | some sp => [mkMatch entry sp]
        | none => []
       else []) ++
      (if 3 ≤ el then
        match partial_go accept lem text expr_tokens tokens el (partial_pairs el) with
        | some sp => [mkMatch entry sp]
        | none => []
       else []))

/-- `token_window_match` (matcher.py) with its own acceptance predicate. -/
def token_window_match (lem : PyStr → List PyStr) (lexicon : List LexEntry)
    (text : PyStr) (window_size : Nat := 8) : List MatchD :=
  token_window_match_aux accept_partial lem lexicon text window_size

/-- `LexiconMatcher.match` (matcher.py): dispatch on `use_token_window`. -/
def lexicon_match (lem : PyStr → List PyStr) (lexicon : List LexEntry)
    (text : PyStr) (use_token_window : Bool := false)
    (window_size : Nat := 5) : List MatchD :=
  if use_token_window then token_window_match lem lexicon text window_size
  else exact_match lexicon text

/-! ## Verification of the claims -/

/-- `get_all_lemmas` as the repository runs it when every bounded analyzer
call times out (also the shape of the function when Zeyrek is absent): the
lemma oracle used for the concrete evaluations below. -/
def lemNoZeyrek (w : PyStr) : List PyStr :=
  (get_all_lemmas (fun _ => .timeout) initState w).1

/-- C5: Turkish-aware lowercasing maps `I` to `ı` and `İ` to `i` before
generic lowercasing: `normalize("İYİ") = "iyi"` and
`normalize("ISTANBUL") = "ıstanbul"` with dotless ı — whereas generic
`str.lower()` alone would give `"istanbul"`, a different string. -/
theorem c5_turkish_lowercasing :
    normalize_turkish_text (pys "İYİ") = pys "iyi" ∧
    normalize_turkish_text (pys "ISTANBUL") = pys "ıstanbul" ∧
    turkish_lowercase (pys "ISTANBUL") = pys "ıstanbul" ∧
    pyLower (pys "ISTANBUL") = pys "istanbul" ∧
    pys "ıstanbul" ≠ pys "istanbul" := by decide

/-- C9: the `window_size` argument of `token_window_match` is never read in
its body, so the result is identical for any two window sizes; the same
holds for `match` with `use_token_window = true`.  Window lengths come only
from each expression's token count. -/
theorem c9_window_size_has_no_effect (lem : PyStr → List PyStr)
    (lexicon : List LexEntry) (text : PyStr) (w1 w2 : Nat) :
    token_window_match lem lexicon text w1 = token_window_match lem lexicon text w2 ∧
    lexicon_match lem lexicon text true w1 = lexicon_match lem lexicon text true w2 :=
  ⟨rfl, rfl⟩

/-- C2: the overlap-resolution sweep keeps a non-overlapping candidate,
replaces the last kept candidate exactly when the overlapping candidate is
strictly longer, and keeps the list unchanged otherwise; candidates are
ordered by ascending start with descending end as tie-break; on the two
candidate spans `[0,10)` and `[5,20)` resolution returns only `[5,20)`. -/
theorem c2_overlap_resolution (last m : MatchD) (rest : List MatchD) :
    (last.span.2 ≤ m.span.1 →
      _remove_overlaps_step (last :: rest) m = m :: last :: rest) ∧
    (m.span.1 < last.span.2 →
      last.span.2 - last.span.1 < m.span.2 - m.span.1 →
      _remove_overlaps_step (last :: rest) m = m :: rest) ∧
    (m.span.1 < last.span.2 →
      ¬ last.span.2 - last.span.1 < m.span.2 - m.span.1 →
      _remove_overlaps_step (last :: rest) m = last :: rest) ∧
    _remove_overlaps [⟨(0, 10), [], [], []⟩, ⟨(5, 20), [], [], []⟩] =
      [⟨(5, 20), [], [], []⟩] ∧
    sortLe overlapKeyLE [⟨(0, 5), [], [], []⟩, ⟨(0, 9), [], [], []⟩] =
      [⟨(0, 9), [], [], []⟩, ⟨(0, 5), [], [], []⟩] := by
  refine ⟨fun h => ?_, fun h1 h2 => ?_, fun h1 h2 => ?_, by decide, by decide⟩
  · simp [_remove_overlaps_step, h]
  · simp [_remove_overlaps_step, h2, not_le.mpr h1]
  · simp [_remove_overlaps_step, h2, not_le.mpr h1]

/-- Witness for C2: the replace branch fires on the claim's concrete
overlapping spans. -/
theorem c2_overlap_resolution_witness :
    _remove_overlaps_step [⟨(0, 10), [], [], []⟩] ⟨(5, 20), [], [], []⟩ =
      [⟨(5, 20), [], [], []⟩] :=
  (c2_overlap_resolution ⟨(0, 10), [], [], []⟩ ⟨(5, 20), [], [], []⟩ []).2.1
    (by decide) (by decide)

/-- C3, counterexample: the claim's acceptance threshold
`max(2, ceil(0.7 · n))` is not the one the code computes.  For the
expression tokens `["a","b","c"]` against the window `["a","b","x"]` the
walk matches 2 pairs and the code accepts, yet
`max(2, ceil(0.7 · 3)) = 3 > 2`, so acceptance is not equivalent to
`count ≥ max(2, ceil(0.7 · n))`. -/
theorem c3_counterexample :
    _flexible_tokens_match lemNoZeyrek [pys "a", pys "b", pys "c"]
        [pys "a", pys "b", pys "x"] = true ∧
    _flexible_count lemNoZeyrek [pys "a", pys "b", pys "c"]
        [pys "a", pys "b", pys "x"] = 2 ∧
    2 < max 2 ((7 * 3 + 9) / 10) := by decide

/-- C3, amended: the walk is as claimed (two cursors, one-token skip on
either side before advancing both), but acceptance compares the matched
count against `max(2, int(n * 0.7))` — a truncated (floor) threshold, not a
ceiling.  The last conjunct exercises a window-side skip: against
`["a","q","b","c"]` the expression `["a","b","c"]` still matches 3 pairs. -/
theorem c3_flexible_matching_floor_threshold (lem : PyStr → List PyStr)
    (expr_tokens window_tokens : List PyStr) :
    (_flexible_tokens_match lem expr_tokens window_tokens = true ↔
      max 2 (expr_tokens.length * 7 / 10) ≤
        _flexible_count lem expr_tokens window_tokens) ∧
    flexible_min_matches expr_tokens.length =
      max 2 (expr_tokens.length * 7 / 10) ∧
    _flexible_count lemNoZeyrek [pys "a", pys "b", pys "c"]
        [pys "a", pys "q", pys "b", pys "c"] = 3 ∧
    _flexible_tokens_match lemNoZeyrek [pys "a", pys "b", pys "c"]
        [pys "a", pys "q", pys "b", pys "c"] = true := by
  refine ⟨?_, rfl, by decide, by decide⟩
  simp [_flexible_tokens_match, flexible_min_matches]

/-- A successful cache lookup returns a value stored in the cache. -/
lemma cacheLookup_some {cache : List (PyStr × List PyStr)} {k : PyStr}
    {v : List PyStr} (h : cacheLookup cache k = some v) :
    ∃ p ∈ cache, p.2 = v := by
  unfold cacheLookup at h
  cases hf : cache.find? (fun p => p.1 == k) with
  | none => rw [hf] at h; simp at h
  | some p =>
    rw [hf] at h
    simp at h
    exact ⟨p, List.mem_of_find?_eq_some hf, h⟩

/-- The miss path always produces a non-empty lemma list. -/
lemma get_all_lemmas_core_ne_nil (analyzer : PyStr → ZeyrekOutcome)
    (st : LemmaState) (wl : PyStr) :
    (get_all_lemmas_core analyzer st wl).1 ≠ [] := by
  unfold get_all_lemmas_core
  simp only []
  split <;> split <;> simp_all

/-- C6: `get_all_lemmas` always returns a non-empty list (given the
invariant that cached values are non-empty, which the code maintains), and
words shorter than 2 characters return `[word]` immediately with the state
— cache, counters — completely untouched. -/
theorem c6_get_all_lemmas_total (analyzer : PyStr → ZeyrekOutcome)
    (st : LemmaState) (word : PyStr)
    (hcache : st.cache.all (fun p => !p.2.isEmpty) = true) :
    (get_all_lemmas analyzer st word).1 ≠ [] ∧
    (word.length < 2 → get_all_lemmas analyzer st word = ([word], st)) := by
  constructor
  · unfold get_all_lemmas
    split
    · simp
    · cases hc : cacheLookup st.cache (pyLower word) with
      | some cached =>
        simp only [hc]
        obtain ⟨p, hp, hpv⟩ := cacheLookup_some hc
        have := List.all_eq_true.mp hcache p hp
        simp_all [List.isEmpty_iff]
      | none =>
        simp only [hc]
        exact get_all_lemmas_core_ne_nil analyzer st (pyLower word)
  · intro h
    unfold get_all_lemmas
    rw [if_pos]
    simp [h]

/-- Witness for C6 at a concrete input: a fresh state and a timing-out
analyzer still produce a non-empty lemma list. -/
theorem c6_get_all_lemmas_total_witness :
    (get_all_lemmas (fun _ => .timeout) initState (pys "ev")).1 ≠ [] :=
  (c6_get_all_lemmas_total (fun _ => .timeout) initState (pys "ev")
    (by decide)).1

/-- What one `_zeyrek_lemmatize_with_timeout` call does: the returned value
is `zeyrekResult`, `calls` is bumped exactly once, and `fallbacks` and the
cache are untouched. -/
lemma zeyrek_call_spec (analyzer : PyStr → ZeyrekOutcome) (st : LemmaState)
    (word : PyStr) :
    (_zeyrek_lemmatize_with_timeout analyzer st word).1 =
      zeyrekResult analyzer word ∧
    (_zeyrek_lemmatize_with_timeout analyzer st word).2.calls = st.calls + 1 ∧
    (_zeyrek_lemmatize_with_timeout analyzer st word).2.fallbacks =
      st.fallbacks ∧
    (_zeyrek_lemmatize_with_timeout analyzer st word).2.cache = st.cache := by
  unfold _zeyrek_lemmatize_with_timeout zeyrekResult
  cases analyzer word <;> simp <;> split <;> simp

/-- A successful analyzer call never reports an empty lemma list. -/
lemma zeyrekResult_ne_some_nil (analyzer : PyStr → ZeyrekOutcome)
    (w : PyStr) : zeyrekResult analyzer w ≠ some [] := by
  unfold zeyrekResult
  cases analyzer w <;> simp <;> split <;> simp_all [List.isEmpty_iff]

/-- Unfolding the fold of `dedupKeepOrder`: members come from the seed
accumulator or the input list. -/
lemma dedup_foldl_mem (l : List PyStr) :
    ∀ (acc : List PyStr) (x : PyStr),
      x ∈ l.foldl (fun acc x => if acc.contains x then acc else acc ++ [x]) acc →
      x ∈ acc ∨ x ∈ l := by
  induction l with
  | nil => intro acc x hx; simp_all
  | cons a t ih =>
    intro acc x hx
    simp only [List.foldl_cons] at hx
    rcases ih _ x hx with h' | h'
    · by_cases hc : acc.contains a = true
      · rw [if_pos hc] at h'
        exact Or.inl h'
      · rw [if_neg hc] at h'
        rcases List.mem_append.mp h' with h'' | h''
        · exact Or.inl h''
        · simp at h''
          exact Or.inr (by simp [h''])
    · exact Or.inr (List.mem_cons_of_mem _ h')

/-- Order-preserving dedup only drops duplicates: members come from the
input list. -/
lemma mem_dedupKeepOrder {x : PyStr} {l : List PyStr}
    (h : x ∈ dedupKeepOrder l) : x ∈ l := by
  unfold dedupKeepOrder at h
  rcases dedup_foldl_mem l [] x h with h' | h'
  · simp at h'
  · exact h'

/-- On a word of length ≥ 2 whose lowercase form misses the cache,
`get_all_lemmas` runs its miss path. -/
lemma get_all_lemmas_miss (analyzer : PyStr → ZeyrekOutcome)
    (st : LemmaState) (word : PyStr) (hlen : 2 ≤ word.length)
    (hmiss : cacheLookup st.cache (pyLower word) = none) :
    get_all_lemmas analyzer st word =
      get_all_lemmas_core analyzer st (pyLower word) := by
  unfold get_all_lemmas
  have h1 : (word.isEmpty || decide (word.length < 2)) = false := by
    cases word with
    | nil => simp at hlen
    | cons a t =>
      simp only [List.length_cons] at hlen
      simp only [List.isEmpty_cons, Bool.false_or, decide_eq_false_iff_not,
        not_lt, List.length_cons]
      omega
  rw [h1]
  simp only [Bool.false_eq_true, if_false, hmiss]

/-- C4: on a cache miss for a word of length ≥ 2, the analyzer is consulted
exactly once (`calls` rises by exactly one — no retry); the rule-based
fallback fires iff the analyzer produced no result or only the bare
lowercased word (then `fallbacks` rises by exactly one, otherwise it is
unchanged); and in the fallback-triggering case every returned lemma is the
bare word or comes from the rule-based stemmer. -/
theorem c4_fallback_exactly_once (analyzer : PyStr → ZeyrekOutcome)
    (st : LemmaState) (word : PyStr) (hlen : 2 ≤ word.length)
    (hmiss : cacheLookup st.cache (pyLower word) = none) :
    (get_all_lemmas analyzer st word).2.calls = st.calls + 1 ∧
    ((zeyrekResult analyzer (pyLower word) = none ∨
      zeyrekResult analyzer (pyLower word) = some [pyLower word]) ↔
      (get_all_lemmas analyzer st word).2.fallbacks = st.fallbacks + 1) ∧
    (¬(zeyrekResult analyzer (pyLower word) = none ∨
       zeyrekResult analyzer (pyLower word) = some [pyLower word]) →
      (get_all_lemmas analyzer st word).2.fallbacks = st.fallbacks) ∧
    ((zeyrekResult analyzer (pyLower word) = none ∨
      zeyrekResult analyzer (pyLower word) = some [pyLower word]) →
      ∀ x ∈ (get_all_lemmas analyzer st word).1,
        x = pyLower word ∨ x ∈ _simple_stem (pyLower word)) := by
  rw [get_all_lemmas_miss analyzer st word hlen hmiss]
  obtain ⟨hz1, hz2, hz3, hz4⟩ := zeyrek_call_spec analyzer st (pyLower word)
  unfold get_all_lemmas_core
  simp only [hz1]
  cases hzr : zeyrekResult analyzer (pyLower word) with
  | none =>
    simp only [Option.getD_none, List.isEmpty_nil, Bool.true_or, if_true,
      List.nil_append]
    refine ⟨hz2, ?_, ?_, ?_⟩
    · simp [hz3]
    · intro h
      simp at h
    · intro _ x hx
      split at hx
      · simp at hx
        exact Or.inl hx
      · exact Or.inr (mem_dedupKeepOrder hx)
  | some ls =>
    have hls : ls ≠ [] := by
      intro h
      exact zeyrekResult_ne_some_nil analyzer (pyLower word) (h ▸ hzr)
    by_cases hbare : ls = [pyLower word]
    · subst hbare
      simp only [Option.getD_some, List.isEmpty_cons, beq_self_eq_true,
        Bool.or_true, if_true]
      refine ⟨hz2, ?_, ?_, ?_⟩
      · simp [hz3]
      · intro h
        simp at h
      · intro _ x hx
        split at hx
        · simp at hx
          exact Or.inl hx
        · rcases List.mem_append.mp (mem_dedupKeepOrder hx) with h' | h'
          · simp at h'
            exact Or.inl h'
          · exact Or.inr h'
    · have hcond : (ls.isEmpty || (ls == [pyLower word])) = false := by
        simp [List.isEmpty_iff, hls, hbare]
      simp only [Option.getD_some, hcond, Bool.false_eq_true, if_false]
      refine ⟨hz2, ?_, ?_, ?_⟩
      · constructor
        · rintro (h | h)
          · simp at h
          · exact absurd (Option.some.inj h) hbare
        · intro h
          simp [hz3] at h
      · intro _
        exact hz3
      · rintro (h | h)
        · simp at h
        · exact absurd (Option.some.inj h) hbare

/-- Witness for C4: a concrete cache-miss call against an always-timing-out
analyzer bumps `calls` exactly once. -/
theorem c4_fallback_exactly_once_witness :
    (get_all_lemmas (fun _ => .timeout) initState (pys "evler")).2.calls =
      initState.calls + 1 :=
  (c4_fallback_exactly_once (fun _ => .timeout) initState (pys "evler")
    (by decide) (by decide)).1

/-- C8: with every bounded analyzer call timing out and a cold cache for
the word, `get_all_lemmas "gözleri"` still returns a non-empty list that
contains the noun-stemmer candidate `"göz"`, and the call increments the
`timeouts` counter by exactly one. -/
theorem c8_timeout_fallback_contains_goz (st : LemmaState)
    (hmiss : cacheLookup st.cache (pys "gözleri") = none) :
    pys "göz" ∈ (get_all_lemmas (fun _ => .timeout) st (pys "gözleri")).1 ∧
    (get_all_lemmas (fun _ => .timeout) st (pys "gözleri")).2.timeouts =
      st.timeouts + 1 ∧
    (get_all_lemmas (fun _ => .timeout) st (pys "gözleri")).1 ≠ [] := by
  have hlow : pyLower (pys "gözleri") = pys "gözleri" := by decide
  have hred := get_all_lemmas_miss (fun _ => .timeout) st (pys "gözleri")
    (by decide) (by rw [hlow]; exact hmiss)
  rw [hred, hlow]
  refine ⟨?_, ?_, ?_⟩ <;>
    simp only [get_all_lemmas_core, _zeyrek_lemmatize_with_timeout] <;>
    simp <;> decide

/-- Witness for C8 at the fresh module state. -/
theorem c8_timeout_fallback_contains_goz_witness :
    pys "göz" ∈ (get_all_lemmas (fun _ => .timeout) initState (pys "gözleri")).1 :=
  (c8_timeout_fallback_contains_goz initState rfl).1

/-- Membership in a stable insertion. -/
lemma mem_insertLe {α : Type} {le : α → α → Bool} {x a : α} :
    ∀ {l : List α}, a ∈ insertLe le x l ↔ a = x ∨ a ∈ l := by
  intro l
  induction l with
  | nil => simp [insertLe]
  | cons y ys ih =>
    unfold insertLe
    split
    · simp [List.mem_cons]
    · simp only [List.mem_cons, ih]
      tauto

/-- Stable insertion preserves sortedness for a total, transitive boolean
preorder. -/
lemma pairwise_insertLe {α : Type} {le : α → α → Bool}
    (htrans : ∀ a b c, le a b = true → le b c = true → le a c = true)
    (htotal : ∀ a b, (le a b || le b a) = true) (x : α) :
    ∀ {l : List α}, l.Pairwise (fun a b => le a b = true) →
      (insertLe le x l).Pairwise (fun a b => le a b = true) := by
  intro l
  induction l with
  | nil => intro _; simp [insertLe]
  | cons y ys ih =>
    intro h
    obtain ⟨hy, hys⟩ := List.pairwise_cons.mp h
    unfold insertLe
    by_cases hxy : le x y = true
    · rw [if_pos hxy]
      refine List.pairwise_cons.mpr ⟨?_, h⟩
      intro b hb
      rcases List.mem_cons.mp hb with rfl | hb'
      · exact hxy
      · exact htrans x y b hxy (hy b hb')
    · rw [if_neg hxy]
      refine List.pairwise_cons.mpr ⟨?_, ih hys⟩
      intro b hb
      rcases mem_insertLe.mp hb with hbx | hb'
      · rw [hbx]
        have h2 := htotal x y
        rw [Bool.or_eq_true] at h2
        exact h2.resolve_left hxy
      · exact hy b hb'

/-- The stable sort is sorted for a total, transitive boolean preorder. -/
lemma pairwise_sortLe {α : Type} {le : α → α → Bool}
    (htrans : ∀ a b c, le a b = true → le b c = true → le a c = true)
    (htotal : ∀ a b, (le a b || le b a) = true) :
    ∀ l : List α, (sortLe le l).Pairwise (fun a b => le a b = true) := by
  intro l
  induction l with
  | nil => simp [sortLe]
  | cons x xs ih => exact pairwise_insertLe htrans htotal x ih

/-- The `(start, -end)` key order is transitive. -/
lemma overlapKeyLE_trans (a b c : MatchD) (hab : overlapKeyLE a b = true)
    (hbc : overlapKeyLE b c = true) : overlapKeyLE a c = true := by
  simp only [overlapKeyLE, Bool.or_eq_true, Bool.and_eq_true,
    decide_eq_true_eq] at *
  omega

/-- The `(start, -end)` key order is total. -/
lemma overlapKeyLE_total (a b : MatchD) :
    (overlapKeyLE a b || overlapKeyLE b a) = true := by
  simp only [overlapKeyLE, Bool.or_eq_true, Bool.and_eq_true,
    decide_eq_true_eq]
  omega

/-- The key order implies ascending starts. -/
lemma overlapKeyLE_start {a b : MatchD} (h : overlapKeyLE a b = true) :
    a.span.1 ≤ b.span.1 := by
  simp only [overlapKeyLE, Bool.or_eq_true, Bool.and_eq_true,
    decide_eq_true_eq] at h
  omega

/-- Invariant of the greedy sweep of `_remove_overlaps`, on the reversed
kept list: adjacent elements separate (`next.end ≤ last.start`, reading the
accumulator back to front), starts are descending, and every element starts
no later than any pending candidate.  Consuming a start-sorted candidate
list preserves both chains. -/
lemma remove_overlaps_foldl_inv :
    ∀ (l acc : List MatchD),
      l.Pairwise (fun a b => overlapKeyLE a b = true) →
      List.Chain' (fun a b => b.span.2 ≤ a.span.1) acc →
      List.Chain' (fun a b => b.span.1 ≤ a.span.1) acc →
      (∀ m ∈ l, ∀ a ∈ acc, a.span.1 ≤ m.span.1) →
      List.Chain' (fun a b => b.span.2 ≤ a.span.1)
          (l.foldl _remove_overlaps_step acc) ∧
        List.Chain' (fun a b => b.span.1 ≤ a.span.1)
          (l.foldl _remove_overlaps_step acc) := by
  intro l
  induction l with
  | nil => exact fun acc _ h1 h2 _ => ⟨h1, h2⟩
  | cons m t ih =>
    intro acc hl h1 h2 hheads
    obtain ⟨hm_t, ht⟩ := List.pairwise_cons.mp hl
    simp only [List.foldl_cons]
    cases acc with
    | nil =>
      refine ih _ ht (by simp [_remove_overlaps_step]) (by simp [_remove_overlaps_step]) ?_
      intro m' hm' a ha
      simp only [_remove_overlaps_step, List.mem_singleton] at ha
      subst ha
      exact overlapKeyLE_start (hm_t m' hm')
    | cons last rest =>
      have hlast_le : last.span.1 ≤ m.span.1 :=
        hheads m (List.mem_cons_self m t) last (List.mem_cons_self last rest)
      by_cases hA : last.span.2 ≤ m.span.1
      · have hstep : _remove_overlaps_step (last :: rest) m = m :: last :: rest := by
          simp [_remove_overlaps_step, hA]
        rw [hstep]
        refine ih _ ht (List.chain'_cons.mpr ⟨hA, h1⟩)
          (List.chain'_cons.mpr ⟨hlast_le, h2⟩) ?_
        intro m' hm' a ha
        rcases List.mem_cons.mp ha with rfl | ha'
        · exact overlapKeyLE_start (hm_t m' hm')
        · exact hheads m' (List.mem_cons_of_mem m hm') a ha'
      · by_cases hB : last.span.2 - last.span.1 < m.span.2 - m.span.1
        · have hstep : _remove_overlaps_step (last :: rest) m = m :: rest := by
            simp [_remove_overlaps_step, hA, hB]
          rw [hstep]
          have hch1 : List.Chain' (fun a b => b.span.2 ≤ a.span.1) (m :: rest) := by
            cases rest with
            | nil => simp
            | cons b rb =>
              refine List.chain'_cons.mpr ⟨?_, (List.chain'_cons.mp h1).2⟩
              have hb := (List.chain'_cons.mp h1).1
              omega
          have hch2 : List.Chain' (fun a b => b.span.1 ≤ a.span.1) (m :: rest) := by
            cases rest with
            | nil => simp
            | cons b rb =>
              refine List.chain'_cons.mpr ⟨?_, (List.chain'_cons.mp h2).2⟩
              have hb := (List.chain'_cons.mp h2).1
              omega
          refine ih _ ht hch1 hch2 ?_
          intro m' hm' a ha
          rcases List.mem_cons.mp ha with rfl | ha'
          · exact overlapKeyLE_start (hm_t m' hm')
          · exact hheads m' (List.mem_cons_of_mem m hm') a
              (List.mem_cons_of_mem last ha')
        · have hstep : _remove_overlaps_step (last :: rest) m = last :: rest := by
            simp [_remove_overlaps_step, hA, hB]
          rw [hstep]
          refine ih _ ht h1 h2 ?_
          intro m' hm' a ha
          exact hheads m' (List.mem_cons_of_mem m hm') a ha

/-- `_remove_overlaps` always emits a list whose adjacent spans separate
(`end ≤ next start`) and whose starts ascend. -/
lemma remove_overlaps_sorted (l : List MatchD) :
    List.Chain' (fun a b => a.span.2 ≤ b.span.1) (_remove_overlaps l) ∧
    List.Pairwise (fun a b => a.span.1 ≤ b.span.1) (_remove_overlaps l) := by
  unfold _remove_overlaps
  obtain ⟨hc1, hc2⟩ := remove_overlaps_foldl_inv (sortLe overlapKeyLE l) []
    (pairwise_sortLe overlapKeyLE_trans overlapKeyLE_total l)
    (by simp) (by simp) (by simp)
  constructor
  · exact List.chain'_reverse.mpr hc1
  · haveI : IsTrans MatchD (fun a b => a.span.1 ≤ b.span.1) :=
      ⟨fun a b c hab hbc => le_trans hab hbc⟩
    exact List.chain'_iff_pairwise.mp (List.chain'_reverse.mpr hc2)

/-- C1: for every lemma oracle, lexicon, text, mode and window size, the
match list returned by `LexiconMatcher.match` is sorted by ascending span
start and pairwise non-overlapping: each adjacent pair satisfies
`match[i].end ≤ match[i+1].start`. -/
theorem c1_matches_sorted_nonoverlapping (lem : PyStr → List PyStr)
    (lexicon : List LexEntry) (text : PyStr) (use_token_window : Bool)
    (window_size : Nat) :
    List.Chain' (fun a b => a.span.2 ≤ b.span.1)
        (lexicon_match lem lexicon text use_token_window window_size) ∧
      List.Pairwise (fun a b => a.span.1 ≤ b.span.1)
        (lexicon_match lem lexicon text use_token_window window_size) := by
  unfold lexicon_match token_window_match token_window_match_aux exact_match
  cases use_token_window <;> simp only [Bool.false_eq_true, if_false, if_true] <;>
    exact remove_overlaps_sorted _

/-- Every `(match_start, match_end)` pair tried by the partial pass spans at
least 2 tokens and stays within the expression. -/
lemma mem_partial_pairs {el : Nat} {p : Nat × Nat}
    (hp : p ∈ partial_pairs el) : p.1 + 2 ≤ p.2 ∧ p.2 ≤ el := by
  unfold partial_pairs at hp
  simp only [List.mem_flatMap, List.mem_map, List.mem_range] at hp
  obtain ⟨ms, hms, me, hme, rfl⟩ := hp
  rw [List.mem_range'_1] at hme
  omega

/-- On pair lists whose pairs span at least 2 tokens, the partial pass with
the source's acceptance test equals the partial pass that accepts
everything: the test's `match_len >= 2` disjunct always holds. -/
lemma partial_go_accept (lem : PyStr → List PyStr) (text : PyStr)
    (expr_tokens tokens : List PyStr) (el : Nat) :
    ∀ pairs : List (Nat × Nat), (∀ p ∈ pairs, 2 ≤ p.2 - p.1) →
      partial_go accept_partial lem text expr_tokens tokens el pairs =
        partial_go (fun _ _ => true) lem text expr_tokens tokens el pairs := by
  intro pairs
  induction pairs with
  | nil => intro _; rfl
  | cons p rest ih =>
    intro hp
    obtain ⟨ms, me⟩ := p
    have h2 : 2 ≤ me - ms := hp (ms, me) (List.mem_cons_self _ _)
    have hacc : accept_partial (me - ms) el = true := by
      unfold accept_partial
      simp [h2]
    unfold partial_go
    simp only [hacc, if_true]
    split
    · rfl
    · cases hF : (List.range (tokens.length - (me - ms) + 1)).findSome?
          (fun i =>
            if _tokens_match lem ((expr_tokens.drop ms).take (me - ms))
                ((tokens.drop i).take (me - ms)) then
              _find_token_span text i (i + (me - ms))
            else none) with
      | some sp => simp [hF]
      | none =>
        simp only [hF]
        exact ih fun q hq => hp q (List.mem_cons_of_mem _ hq)

/-- C10: the acceptance condition of the partial pass filters nothing —
every tried sub-window already has at least 2 tokens, so `match_len >= 2`
always holds and `token_window_match` equals the variant whose partial pass
accepts every candidate. -/
theorem c10_partial_threshold_filters_nothing :
    (∀ (lem : PyStr → List PyStr) (lexicon : List LexEntry) (text : PyStr)
        (window_size : Nat),
      token_window_match lem lexicon text window_size =
        token_window_match_aux (fun _ _ => true) lem lexicon text window_size) ∧
    ∀ el, (partial_pairs el).all (fun p => decide (2 ≤ p.2 - p.1)) = true := by
  constructor
  · intro lem lexicon text window_size
    unfold token_window_match token_window_match_aux
    refine congrArg _remove_overlaps (congrArg lexicon.flatMap
      (funext fun entry => ?_))
    have hpairs : ∀ q ∈ partial_pairs (tokenize_simple entry.key).length,
        2 ≤ q.2 - q.1 := by
      intro q hq
      have := mem_partial_pairs hq
      omega
    simp only [partial_go_accept lem text (tokenize_simple entry.key)
      (tokenize_simple text) (tokenize_simple entry.key).length
      (partial_pairs (tokenize_simple entry.key).length) hpairs]
  · intro el
    rw [List.all_eq_true]
    intro p hp
    have := mem_partial_pairs hp
    simp only [decide_eq_true_eq]
    omega

/-- Evaluation of the per-character composite of `turkish_lowercase`: the
two replacements fire first, so `İ` (304) never reaches the two-code-point
generic lowering. -/
lemma tlc_eval (c : Nat) :
    tlc c = if c = 73 then [305] else if c = 304 then [105] else lowerChar c := by
  unfold tlc rchar
  by_cases h73 : c = 73
  · subst h73; rfl
  · by_cases h304 : c = 304
    · subst h304; rfl
    · simp only [if_neg h73, if_neg h304]

/-- The possible outputs of one generic-lowercase step. -/
lemma lowerChar_cases {c d : Nat} (hd : d ∈ lowerChar c) :
    (65 ≤ c ∧ c ≤ 90 ∧ d = c + 32) ∨ d = 231 ∨ d = 246 ∨ d = 252 ∨
      d = 287 ∨ d = 105 ∨ d = 775 ∨ d = 351 ∨
      (d = c ∧ ¬(65 ≤ c ∧ c ≤ 90) ∧ c ≠ 199 ∧ c ≠ 214 ∧ c ≠ 220 ∧
        c ≠ 286 ∧ c ≠ 304 ∧ c ≠ 350) := by
  unfold lowerChar at hd
  split_ifs at hd <;> simp at hd <;> tauto

/-- Every character that `turkish_lowercase` emits is a fixed point of its
per-character map. -/
lemma tlc_fix {c d : Nat} (hd : d ∈ tlc c) : tlc d = [d] := by
  rw [tlc_eval] at hd
  rw [tlc_eval]
  split_ifs at hd with h1 h2
  · simp at hd; subst hd; decide
  · simp at hd; subst hd; decide
  · rcases lowerChar_cases hd with ⟨hc1, hc2, rfl⟩ | rfl | rfl | rfl | rfl |
      rfl | rfl | rfl | ⟨rfl, hnc, hn1, hn2, hn3, hn4, hn5, hn6⟩
    · rw [if_neg (by omega), if_neg (by omega)]
      unfold lowerChar
      split_ifs <;> first | rfl | omega
    · decide
    · decide
    · decide
    · decide
    · decide
    · decide
    · decide
    · rw [if_neg h1, if_neg h2]
      unfold lowerChar
      split_ifs <;> first | rfl | omega

/-- A map under a flatMap fuses into the flatMap. -/
lemma flatMap_after_map {α β γ : Type} (f : α → β) (g : β → List γ) :
    ∀ l : List α, (l.map f).flatMap g = l.flatMap fun x => g (f x) := by
  intro l
  induction l with
  | nil => rfl
  | cons a t ih => simp [ih]

/-- `turkish_lowercase` is the flatMap of its per-character composite. -/
lemma turkish_lowercase_eq (s : PyStr) :
    turkish_lowercase s = s.flatMap tlc := by
  unfold turkish_lowercase pyLower tlc
  rw [List.map_map, flatMap_after_map]
  rfl

/-- flatMap of a pointwise-identity per-character map is the identity. -/
lemma flatMap_tlc_id : ∀ {s : PyStr}, (∀ d ∈ s, tlc d = [d]) →
    s.flatMap tlc = s := by
  intro s
  induction s with
  | nil => intro _; rfl
  | cons c t ih =>
    intro h
    simp only [List.flatMap_cons, h c (List.mem_cons_self c t)]
    rw [ih fun d hd => h d (List.mem_cons_of_mem c hd)]
    rfl

/-- The collapsed text has only plain-space whitespace, no two adjacent
whitespace characters, and (when the incoming flag is set) no leading
whitespace. -/
lemma collapse_good : ∀ (s : PyStr) (b : Bool),
    AllWsSp (collapseWsAux b s) ∧ NoTwoWs (collapseWsAux b s) ∧
      (b = true → HeadNotWs (collapseWsAux b s)) := by
  intro s
  induction s with
  | nil =>
    intro b
    refine ⟨?_, ?_, ?_⟩ <;> simp [collapseWsAux, AllWsSp, NoTwoWs, HeadNotWs]
  | cons c cs ih =>
    intro b
    by_cases hws : isWs c = true
    · cases b with
      | true =>
        have := ih true
        simpa [collapseWsAux, hws] using this
      | false =>
        obtain ⟨h1, h2, h3⟩ := ih true
        have hstep : collapseWsAux false (c :: cs) = 32 :: collapseWsAux true cs := by
          simp [collapseWsAux, hws]
        rw [hstep]
        refine ⟨?_, ?_, ?_⟩
        · intro d hd hdws
          rcases List.mem_cons.mp hd with rfl | hd'
          · rfl
          · exact h1 d hd' hdws
        · refine List.chain'_cons'.mpr ⟨?_, h2⟩
          intro y hy
          have := h3 rfl y hy
          simp [this]
        · intro hb
          simp at hb
    · obtain ⟨h1, h2, h3⟩ := ih false
      have hstep : collapseWsAux b (c :: cs) = c :: collapseWsAux false cs := by
        simp [collapseWsAux, hws]
      rw [hstep]
      refine ⟨?_, ?_, ?_⟩
      · intro d hd hdws
        rcases List.mem_cons.mp hd with rfl | hd'
        · exact absurd hdws (by simp [hws])
        · exact h1 d hd' hdws
      · refine List.chain'_cons'.mpr ⟨?_, h2⟩
        intro y hy
        intro hcon
        exact hws hcon.1
      · intro _ d hd
        simp at hd
        rw [← hd]
        simp at hws
        exact hws

/-- Characters of the collapsed text are spaces or input characters. -/
lemma mem_collapse : ∀ (s : PyStr) (b : Bool) (c : Nat),
    c ∈ collapseWsAux b s → c = 32 ∨ c ∈ s := by
  intro s
  induction s with
  | nil => intro b c hc; simp [collapseWsAux] at hc
  | cons a t ih =>
    intro b c hc
    by_cases hws : isWs a = true
    · cases b with
      | true =>
        rw [show collapseWsAux true (a :: t) = collapseWsAux true t by
          simp [collapseWsAux, hws]] at hc
        rcases ih true c hc with h | h
        · exact Or.inl h
        · exact Or.inr (List.mem_cons_of_mem a h)
      | false =>
        rw [show collapseWsAux false (a :: t) = 32 :: collapseWsAux true t by
          simp [collapseWsAux, hws]] at hc
        rcases List.mem_cons.mp hc with rfl | hc'
        · exact Or.inl rfl
        · rcases ih true c hc' with h | h
          · exact Or.inl h
          · exact Or.inr (List.mem_cons_of_mem a h)
    · rw [show collapseWsAux b (a :: t) = a :: collapseWsAux false t by
        simp [collapseWsAux, hws]] at hc
      rcases List.mem_cons.mp hc with rfl | hc'
      · exact Or.inr (List.mem_cons_self c t)
      · rcases ih false c hc' with h | h
        · exact Or.inl h
        · exact Or.inr (List.mem_cons_of_mem a h)

/-- Collapsing already-collapsed text (with a compatible incoming flag) is
the identity. -/
lemma collapse_id : ∀ (s : PyStr) (b : Bool), AllWsSp s → NoTwoWs s →
    (b = true → HeadNotWs s) → collapseWsAux b s = s := by
  intro s
  induction s with
  | nil => intro b _ _ _; rfl
  | cons c cs ih =>
    intro b h1 h2 h3
    by_cases hws : isWs c = true
    · have hb : b = false := by
        cases b with
        | false => rfl
        | true =>
          have := h3 rfl c rfl
          rw [this] at hws
          exact absurd hws (by simp)
      subst hb
      have hc32 : c = 32 := h1 c (List.mem_cons_self c cs) hws
      have hhead : HeadNotWs cs := by
        intro y hy
        have := (List.chain'_cons'.mp h2).1 y hy
        by_cases hyws : isWs y = true
        · exact absurd ⟨hws, hyws⟩ this
        · simpa using hyws
      have hrec : collapseWsAux true cs = cs :=
        ih true (fun d hd hdws => h1 d (List.mem_cons_of_mem c hd) hdws)
          (List.chain'_cons'.mp h2).2 (fun _ => hhead)
      rw [show collapseWsAux false (c :: cs) = 32 :: collapseWsAux true cs from by
        simp [collapseWsAux, hws], hrec, hc32]
    · have hrec : collapseWsAux false cs = cs :=
        ih false (fun d hd hdws => h1 d (List.mem_cons_of_mem c hd) hdws)
          (List.chain'_cons'.mp h2).2 (by intro h; simp at h)
      simp [collapseWsAux, hws, hrec]

/-- Left-stripping leaves no leading whitespace. -/
lemma headNotWs_dropWhile : ∀ s : PyStr, HeadNotWs (s.dropWhile isWs) := by
  intro s
  induction s with
  | nil => intro c hc; simp at hc
  | cons a t ih =>
    by_cases hws : isWs a = true
    · simpa [List.dropWhile_cons, hws] using ih
    · intro c hc
      rw [List.dropWhile_cons_of_neg (by simp_all)] at hc
      simp at hc
      rw [← hc]
      simpa using hws

/-- Left-stripping preserves the collapsed shape. -/
lemma dropWhile_preserves : ∀ s : PyStr, AllWsSp s → NoTwoWs s →
    AllWsSp (s.dropWhile isWs) ∧ NoTwoWs (s.dropWhile isWs) := by
  intro s
  induction s with
  | nil => intro h1 h2; simp [h1, h2]
  | cons a t ih =>
    intro h1 h2
    by_cases hws : isWs a = true
    · rw [List.dropWhile_cons_of_pos hws]
      exact ih (fun d hd hdws => h1 d (List.mem_cons_of_mem a hd) hdws)
        (List.chain'_cons'.mp h2).2
    · rw [List.dropWhile_cons_of_neg (by simp_all)]
      exact ⟨h1, h2⟩

/-- Left-stripping on text with no leading whitespace is the identity. -/
lemma dropWhile_id {s : PyStr} (h : HeadNotWs s) : s.dropWhile isWs = s := by
  cases s with
  | nil => rfl
  | cons a t =>
    rw [List.dropWhile_cons_of_neg]
    simp [h a rfl]

/-- Members of the right-stripped text come from the text. -/
lemma mem_dropTrailWs : ∀ (s : PyStr) (c : Nat), c ∈ dropTrailWs s → c ∈ s := by
  intro s
  induction s with
  | nil => intro c hc; simp [dropTrailWs] at hc
  | cons a t ih =>
    intro c hc
    unfold dropTrailWs at hc
    split at hc
    · simp at hc
    · rcases List.mem_cons.mp hc with rfl | hc'
      · exact List.mem_cons_self c t
      · exact List.mem_cons_of_mem a (ih c hc')

/-- The head survives right-stripping (when anything survives). -/
lemma dropTrailWs_head : ∀ (s : PyStr) (c : Nat),
    (dropTrailWs s).head? = some c → s.head? = some c := by
  intro s c hc
  cases s with
  | nil => simp [dropTrailWs] at hc
  | cons a t =>
    unfold dropTrailWs at hc
    split at hc
    · simp at hc
    · simp at hc ⊢
      exact hc

/-- Right-stripping preserves the collapsed shape. -/
lemma dropTrailWs_preserves : ∀ s : PyStr, AllWsSp s → NoTwoWs s →
    AllWsSp (dropTrailWs s) ∧ NoTwoWs (dropTrailWs s) := by
  intro s
  induction s with
  | nil => intro h1 h2; exact ⟨h1, h2⟩
  | cons a t ih =>
    intro h1 h2
    obtain ⟨ih1, ih2⟩ := ih (fun d hd hdws => h1 d (List.mem_cons_of_mem a hd) hdws)
      (List.chain'_cons'.mp h2).2
    constructor
    · intro d hd hdws
      exact h1 d (mem_dropTrailWs (a :: t) d hd) hdws
    · unfold dropTrailWs
      split
      · simp [NoTwoWs]
      · refine List.chain'_cons'.mpr ⟨?_, ih2⟩
        intro y hy
        exact (List.chain'_cons'.mp h2).1 y (dropTrailWs_head t y hy)

/-- Right-stripping leaves no trailing whitespace. -/
lemma lastNotWs_dropTrailWs : ∀ s : PyStr, LastNotWs (dropTrailWs s) := by
  intro s
  induction s with
  | nil => intro c hc; simp [dropTrailWs] at hc
  | cons a t ih =>
    intro c hc
    unfold dropTrailWs at hc
    split at hc
    · simp at hc
    · rename_i hcond
      cases hr : dropTrailWs t with
      | nil =>
        rw [hr] at hc hcond
        simp at hc hcond
        rw [← hc]
        simpa using hcond
      | cons d r =>
        rw [hr] at hc
        rw [List.getLast?_cons_cons] at hc
        exact ih c (hr ▸ hc)

/-- Right-stripping preserves the absence of leading whitespace. -/
lemma headNotWs_dropTrailWs {s : PyStr} (h : HeadNotWs s) :
    HeadNotWs (dropTrailWs s) :=
  fun c hc => h c (dropTrailWs_head s c hc)

/-- Right-stripping text with no trailing whitespace is the identity. -/
lemma dropTrailWs_id : ∀ {s : PyStr}, LastNotWs s → dropTrailWs s = s := by
  intro s
  induction s with
  | nil => intro _; rfl
  | cons a t ih =>
    intro h
    cases t with
    | nil =>
      have := h a rfl
      unfold dropTrailWs
      simp [dropTrailWs, this]
    | cons b u =>
      have ht : LastNotWs (b :: u) := by
        intro c hc
        exact h c (by rw [List.getLast?_cons_cons]; exact hc)
      have hrec := ih ht
      unfold dropTrailWs
      rw [hrec]
      simp

/-- The whitespace-normalized text is fully normalized: whitespace is
single plain spaces, never adjacent, never leading, never trailing. -/
lemma normalize_ws_good (t : PyStr) :
    AllWsSp (normalize_whitespace t) ∧ NoTwoWs (normalize_whitespace t) ∧
      HeadNotWs (normalize_whitespace t) ∧ LastNotWs (normalize_whitespace t) := by
  unfold normalize_whitespace pyStrip
  obtain ⟨hz1, hz2, _⟩ := collapse_good t false
  obtain ⟨hq1, hq2⟩ := dropWhile_preserves (collapseWsAux false t) hz1 hz2
  obtain ⟨hy1, hy2⟩ := dropTrailWs_preserves _ hq1 hq2
  exact ⟨hy1, hy2,
    headNotWs_dropTrailWs (headNotWs_dropWhile (collapseWsAux false t)),
    lastNotWs_dropTrailWs _⟩

/-- Whitespace normalization is the identity on fully normalized text. -/
lemma normalize_ws_id {s : PyStr} (h1 : AllWsSp s) (h2 : NoTwoWs s)
    (h3 : HeadNotWs s) (h4 : LastNotWs s) : normalize_whitespace s = s := by
  unfold normalize_whitespace pyStrip
  rw [collapse_id s false h1 h2 (by intro h; simp at h), dropWhile_id h3,
    dropTrailWs_id h4]

/-- Characters of the whitespace-normalized text are spaces or input
characters. -/
lemma mem_normalize_ws {t : PyStr} {c : Nat}
    (hc : c ∈ normalize_whitespace t) : c = 32 ∨ c ∈ t := by
  unfold normalize_whitespace pyStrip at hc
  have h1 := mem_dropTrailWs _ c hc
  have h2 := (List.dropWhile_sublist (p := isWs)
    (l := collapseWsAux false t)).mem h1
  exact mem_collapse t false c h2

/-- C7: normalization with default options is idempotent. -/
theorem c7_normalize_idempotent (t : PyStr) :
    normalize_turkish_text (normalize_turkish_text t) =
      normalize_turkish_text t := by
  by_cases ht : t.isEmpty
  · unfold normalize_turkish_text
    simp [ht]
  · have hnt : normalize_turkish_text t =
        normalize_whitespace (turkish_lowercase t) := by
      unfold normalize_turkish_text
      simp [ht]
    rw [hnt]
    by_cases hye : (normalize_whitespace (turkish_lowercase t)).isEmpty
    · unfold normalize_turkish_text
      rw [if_pos hye]
      exact (List.isEmpty_iff.mp hye).symm
    · have hfix : ∀ d ∈ normalize_whitespace (turkish_lowercase t),
          tlc d = [d] := by
        intro d hd
        rcases mem_normalize_ws hd with rfl | hd'
        · rfl
        · rw [turkish_lowercase_eq] at hd'
          obtain ⟨c, _, hdc⟩ := List.mem_flatMap.mp hd'
          exact tlc_fix hdc
      have htl : turkish_lowercase (normalize_whitespace (turkish_lowercase t)) =
          normalize_whitespace (turkish_lowercase t) := by
        rw [turkish_lowercase_eq]
        exact flatMap_tlc_id hfix
      obtain ⟨g1, g2, g3, g4⟩ := normalize_ws_good (turkish_lowercase t)
      unfold normalize_turkish_text
      rw [if_neg (by simp [hye])]
      simp only [if_true]
      rw [htl]
      exact normalize_ws_id g1 g2 g3 g4
